import Mathlib

set_option maxRecDepth 10000

/-!
Verification of the PALAS Fidas 200 S data downloader
(`Fidas_data_downloader.py`) against its natural-language specification.

The Python source is shallowly embedded: strings are lists of characters,
the FTP directory listing is a list of lines, the local directory is the
list of filenames it contains, and the filesystem that the download /
conversion code mutates is an explicit map from filenames to contents.
-/

namespace Fidas

/-- Strings of the Python source are modelled as lists of characters. -/
abbrev Str := List Char

/-- The last element of `line.split(' ')` in Python is exactly the suffix of
the line that follows the last space character (empty if the line ends in a
space). `files_to_be_downloaded` uses this to take the filename token of an
FTP `LIST` line. -/
def lastToken (line : Str) : Str :=
  (line.reverse.takeWhile (fun c => c ≠ ' ')).reverse

/-- Python's negative-offset slice `s[-i:-j]` (for `i > j > 0`): characters
from position `len - i` (clamped at 0) up to, excluding, position `len - j`.
`Nat` subtraction gives exactly Python's clamping. -/
def pyNegSlice (s : Str) (i j : Nat) : Str :=
  (s.take (s.length - j)).drop (s.length - i)

/-- The literal prefix of the instrument's file pattern `DUSTMONITOR*.txt`. -/
def dustPre : Str := "DUSTMONITOR".toList

/-- The literal suffix of the instrument's file pattern `DUSTMONITOR*.txt`. -/
def txtSuf : Str := ".txt".toList

/-- Matching against a pattern `pre + "*" + post` whose `pre` and `post` are
taken literally: the name starts with `pre`, ends with `post`, and is long
enough that the two do not overlap.  This is exactly
`fnmatch(fn, 'DUSTMONITOR*.txt')` for the fixed filter pattern of line 80,
whose only metacharacter is the single `*`; for the per-period pattern of
line 88 — whose year/month parts are filename slices that may themselves
contain fnmatch metacharacters — the full matcher `globMatch` below is used,
and this literal form is its proved characterization in the
metacharacter-free case. -/
def matchesStarPat (pre post fn : Str) : Bool :=
  pre.isPrefixOf fn && post.isSuffixOf fn && decide (pre.length + post.length ≤ fn.length)

/-- A character fnmatch treats specially in a pattern. -/
def isMeta (c : Char) : Bool :=
  c == '*' || c == '?' || c == '['

/-- A string free of fnmatch metacharacters: as (part of) a pattern it
matches only itself. -/
def metaFree (s : Str) : Bool :=
  s.all (fun c => !isMeta c)

/-- Splits a bracket-class remainder at its first closing `]`: returns the
class body and the rest of the pattern, or `none` when no `]` follows. -/
def splitAtClose : Str → Option (Str × Str)
  | [] => Option.none
  | c :: t =>
    if c = ']' then Option.some ([], t)
    else
      match splitAtClose t with
      | Option.some (s, r) => Option.some (c :: s, r)
      | Option.none => Option.none

/-- The bracket-class body after the optional negation marker: a `]` in the
very first position is a literal member, and the body then extends to the
next `]`; `none` when there is no closing `]`. -/
def classBody : Str → Option (Str × Str)
  | [] => Option.none
  | c :: t =>
    if c = ']' then
      match splitAtClose t with
      | Option.some (s, r) => Option.some (']' :: s, r)
      | Option.none => Option.none
    else splitAtClose (c :: t)

/-- CPython's bracket scan (`fnmatch.translate`): directly after `[`, an
optional `!` negates the class, and a `]` right after that is a literal
member; the class body then extends to the next `]`.  Returns the negation
flag, the body, and the pattern following the class; `none` when there is no
closing `]`, in which case `[` is matched literally. -/
def classSpec : Str → Option (Bool × Str × Str)
  | [] => Option.none
  | c :: t =>
    if c = '!' then
      match classBody t with
      | Option.some (s, r) => Option.some (true, s, r)
      | Option.none => Option.none
    else
      match classBody (c :: t) with
      | Option.some (s, r) => Option.some (false, s, r)
      | Option.none => Option.none

/-- Membership of one character in a bracket-class body: `a-b` spans a code
point range (an empty range with `a > b` matches nothing, as
`fnmatch.translate` drops such ranges), every other character — including a
leading or trailing `-` and a `-` directly after a completed range — is a
literal member. -/
def classMember : Str → Char → Bool
  | [], _ => false
  | a :: '-' :: b :: rest, c => (a ≤ c && c ≤ b) || classMember rest c
  | a :: rest, c => (a == c) || classMember rest c

/-- One step-bounded pass of fnmatch-style glob matching of a whole string
against a whole pattern: `*` matches any (possibly empty) sequence, `?` any
single character, `[...]` one character of a class (negated by a leading
`!`), everything else — including `[` without a closing `]` — literally.
Each recursive call shrinks `pat.length + s.length`, so any fuel above that
sum is enough; the fuel only makes the recursion structural. -/
def globMatchFuel : Nat → Str → Str → Bool
  | 0, _, _ => false
  | fuel + 1, pat, s =>
    match pat with
    | [] => s.isEmpty
    | c :: ps =>
      if c = '*' then
        globMatchFuel fuel ps s ||
          (match s with
           | [] => false
           | _ :: s' => globMatchFuel fuel (c :: ps) s')
      else if c = '?' then
        (match s with
         | [] => false
         | _ :: s' => globMatchFuel fuel ps s')
      else if c = '[' then
        match classSpec ps with
        | Option.some (neg, stuff, rest) =>
          (match s with
           | [] => false
           | d :: s' => (classMember stuff d != neg) && globMatchFuel fuel rest s')
        | Option.none =>
          (match s with
           | [] => false
           | d :: s' => (c == d) && globMatchFuel fuel ps s')
      else
        match s with
        | [] => false
        | d :: s' => (c == d) && globMatchFuel fuel ps s'

/-- `fnmatch.fnmatch(s, pat)` on a POSIX system (where `os.path.normcase` is
the identity): full-string glob matching. -/
def globMatch (pat s : Str) : Bool :=
  globMatchFuel (pat.length + s.length + 1) pat s

/-- A period key `(year, month)`, as extracted by
`(fn[-11:-7], fn[-6:-4])` in `files_to_be_downloaded`. -/
abbrev Key := Str × Str

/-- Period-key extraction `(fn[-11:-7], fn[-6:-4])` from line 83 of the source. -/
def periodKey (fn : Str) : Key :=
  (pyNegSlice fn 11 7, pyNegSlice fn 6 4)

/-- The variable tail `{year}_{month}.txt` of the per-period pattern
`DUSTMONITOR*{year}_{month}.txt` built on line 88 of the source. -/
def patOf (k : Key) : Str :=
  k.1 ++ '_' :: (k.2 ++ txtSuf)

/-- A well-shaped key: a four-character year and a two-character month, which
is what the fixed slices always produce on names matching `DUSTMONITOR*.txt`. -/
def wfKey (k : Key) : Prop :=
  k.1.length = 4 ∧ k.2.length = 2

/-- Python string `<=`: lexicographic comparison by character code, with a
proper prefix comparing below any extension. -/
def strLe : Str → Str → Bool
  | [], _ => true
  | _ :: _, [] => false
  | a :: as, b :: bs =>
    if a < b then true
    else if b < a then false
    else strLe as bs

/-- Python tuple comparison `(y1, m1) <= (y2, m2)` on pairs of strings. -/
def kLe (x y : Key) : Prop :=
  (if x.1 = y.1 then strLe x.2 y.2 else strLe x.1 y.1) = true

instance : DecidableRel kLe := fun x y => by
  unfold kLe; infer_instance

theorem strLe_refl (x : Str) : strLe x x = true := by
  induction x with
  | nil => rfl
  | cons a as ih => simp [strLe, ih]

theorem strLe_total (x y : Str) : strLe x y = true ∨ strLe y x = true := by
  induction x generalizing y with
  | nil => left; rfl
  | cons a as ih =>
    cases y with
    | nil => right; rfl
    | cons b bs =>
      rcases lt_trichotomy a b with h | h | h
      · left; simp [strLe, h]
      · subst h
        rcases ih bs with h' | h'
        · left; simp [strLe, h']
        · right; simp [strLe, h']
      · right; simp [strLe, h]

theorem strLe_trans {x y z : Str} (hxy : strLe x y = true) (hyz : strLe y z = true) :
    strLe x z = true := by
  induction x generalizing y z with
  | nil => rfl
  | cons a as ih =>
    cases y with
    | nil => simp [strLe] at hxy
    | cons b bs =>
      cases z with
      | nil => simp [strLe] at hyz
      | cons c cs =>
        rcases lt_trichotomy a b with hab | hab | hab
        · rcases lt_trichotomy b c with hbc | hbc | hbc
          · simp [strLe, lt_trans hab hbc]
          · subst hbc; simp [strLe, hab]
          · simp [strLe, hbc, not_lt_of_lt hbc] at hyz
        · subst hab
          rcases lt_trichotomy a c with hac | hac | hac
          · simp [strLe, hac]
          · subst hac
            simp only [strLe, lt_irrefl, if_false] at hxy hyz ⊢
            exact ih hxy hyz
          · simp [strLe, hac, not_lt_of_lt hac] at hyz
        · simp [strLe, hab, not_lt_of_lt hab] at hxy

theorem kLe_refl (k : Key) : kLe k k := by
  simp [kLe, strLe_refl]

theorem kLe_total (x y : Key) : kLe x y ∨ kLe y x := by
  unfold kLe
  by_cases h : x.1 = y.1
  · rw [if_pos h, if_pos h.symm]
    exact strLe_total x.2 y.2
  · have h' : ¬y.1 = x.1 := fun e => h e.symm
    rw [if_neg h, if_neg h']
    exact strLe_total x.1 y.1

theorem strLe_antisymm {x y : Str} (hxy : strLe x y = true) (hyx : strLe y x = true) :
    x = y := by
  induction x generalizing y with
  | nil =>
    cases y with
    | nil => rfl
    | cons b bs => simp [strLe] at hyx
  | cons a as ih =>
    cases y with
    | nil => simp [strLe] at hxy
    | cons b bs =>
      rcases lt_trichotomy a b with hab | hab | hab
      · simp [strLe, hab, not_lt_of_lt hab] at hyx
      · subst hab
        simp only [strLe, lt_irrefl, if_false] at hxy hyx
        rw [ih hxy hyx]
      · simp [strLe, hab, not_lt_of_lt hab] at hxy

theorem kLe_trans {x y z : Key} (hxy : kLe x y) (hyz : kLe y z) : kLe x z := by
  unfold kLe at *
  by_cases h1 : x.1 = y.1 <;> by_cases h2 : y.1 = z.1
  · simp only [h1, h2, if_pos rfl] at *
    exact strLe_trans hxy hyz
  · rw [if_pos h1] at hxy
    rw [if_neg h2] at hyz
    rw [if_neg (h1 ▸ h2), h1]
    exact hyz
  · rw [if_neg h1] at hxy
    rw [if_pos h2] at hyz
    rw [if_neg (fun h => h1 (h.trans h2.symm)), ← h2]
    exact hxy
  · rw [if_neg h1] at hxy
    rw [if_neg h2] at hyz
    by_cases h3 : x.1 = z.1
    · exact absurd (strLe_antisymm hxy (h3 ▸ hyz)) h1
    · rw [if_neg h3]
      exact strLe_trans hxy hyz

instance : IsTotal Key kLe := ⟨kLe_total⟩

instance : IsTrans Key kLe := ⟨fun _ _ _ => kLe_trans⟩

/-- The filename tokens of the listing that match `DUSTMONITOR*.txt`
(lines 79-80 of the source). -/
def matchingFiles (foldercontent : List Str) : List Str :=
  (foldercontent.map lastToken).filter (fun fn => matchesStarPat dustPre txtSuf fn)

/-- The full pattern string `f'DUSTMONITOR*{year}_{month}.txt'` of line 88. -/
def patFull (k : Key) : Str :=
  dustPre ++ '*' :: patOf k

/-- The inner loop of lines 87-90: the first filename, in listing order, that
`fnmatch`-matches `DUSTMONITOR*{year}_{month}.txt` — with full fnmatch
semantics, since the year/month slices may contain metacharacters. -/
def firstMatch (filenames : List Str) (k : Key) : Option Str :=
  filenames.find? (fun fn => globMatch (patFull k) fn)

/-- The value the Python variable `fname` holds after the inner loop for one
period key: the first match if there is one, otherwise whatever `fname` held
before (`none` models the variable being unbound, which makes the subsequent
`append` raise `UnboundLocalError`). -/
def chooseName (filenames : List Str) (k : Key) (bound : Option Str) : Option Str :=
  match firstMatch filenames k with
  | some fn => some fn
  | none => bound

/-- The outer loop of lines 85-93, walking the period keys newest-to-oldest:
append the chosen filename and stop as soon as an appended filename already
exists in the local directory.  `Except.error` models the `UnboundLocalError`
raised when the very first period key has no matching filename. -/
def walk (filenames localFiles : List Str) : List Key → Option Str → Except Unit (List Str)
  | [], _ => Except.ok []
  | k :: rest, bound =>
    match chooseName filenames k bound with
    | none => Except.error ()
    | some fn =>
      if fn ∈ localFiles then Except.ok [fn]
      else Except.map (fun l => fn :: l) (walk filenames localFiles rest (some fn))

/-- The period keys of the matching filenames, sorted ascending
(`year_month.sort()`, line 84) and then reversed (line 86).  `insertionSort`
gives the same list as Python's sort: `kLe` is total and antisymmetric, so the
sorted permutation of a multiset of keys is unique. -/
def sortedKeysDesc (filenames : List Str) : List Key :=
  (List.insertionSort kLe (filenames.map periodKey)).reverse

/-- First period key walked by the outer loop: the newest one. -/
def newestKey (foldercontent : List Str) : Key :=
  (sortedKeysDesc (matchingFiles foldercontent)).headD ([], [])

/-- Result of `files_to_be_downloaded`: the Python `None` sentinel, a raised
`UnboundLocalError`, or a returned list of filenames. -/
inductive FtbdResult where
  | none : FtbdResult
  | error : FtbdResult
  | files : List Str → FtbdResult
deriving DecidableEq

/-- Lines 72-94 of the source: `files_to_be_downloaded(foldercontent,
local_path)`.  The local directory state is the list of filenames present in
`local_path` (`os.path.exists(f"{local_path}/{fname}")` is membership). -/
def files_to_be_downloaded (foldercontent localFiles : List Str) : FtbdResult :=
  let filenames := matchingFiles foldercontent
  if filenames = [] then FtbdResult.none
  else
    match walk filenames localFiles (sortedKeysDesc filenames) Option.none with
    | Except.ok l => FtbdResult.files l
    | Except.error _ => FtbdResult.error

theorem matchesStarPat_iff {pre post fn : Str} :
    matchesStarPat pre post fn = true ↔ ∃ mid, fn = pre ++ mid ++ post := by
  constructor
  · intro h
    simp only [matchesStarPat, Bool.and_eq_true, decide_eq_true_eq] at h
    obtain ⟨⟨hp, hs⟩, hl⟩ := h
    rw [ List.isPrefixOf_iff_prefix] at hp
    rw [ List.isSuffixOf_iff_suffix] at hs
    obtain ⟨u, hu⟩ := hs
    have hulen : u.length + post.length = fn.length := by
      rw [← hu]; simp
    have hup : u <+: fn := ⟨post, hu⟩
    have hpre_u : pre <+: u :=
      List.prefix_of_prefix_length_le hp hup (by omega)
    obtain ⟨mid, hm⟩ := hpre_u
    exact ⟨mid, by rw [← hu, ← hm]⟩
  · rintro ⟨mid, rfl⟩
    simp only [matchesStarPat, Bool.and_eq_true, decide_eq_true_eq]
    refine ⟨⟨?_, ?_⟩, by simp only [List.length_append]; omega⟩
    · rw [ List.isPrefixOf_iff_prefix, List.append_assoc]
      exact List.prefix_append pre (mid ++ post)
    · rw [ List.isSuffixOf_iff_suffix]
      exact List.suffix_append (pre ++ mid) post

/-- The central slicing fact: for a string of the shape `u ++ v ++ w`, the
Python slice `[-(|v|+|w|) : -|w|]` recovers exactly `v`. -/
theorem pyNegSlice_spec (u v w : Str) :
    pyNegSlice (u ++ v ++ w) (v.length + w.length) w.length = v := by
  unfold pyNegSlice
  have h1 : (u ++ v ++ w).take ((u ++ v ++ w).length - w.length) = u ++ v :=
    List.take_left' (by simp only [List.length_append]; omega)
  rw [h1]
  exact List.drop_left' (by simp only [List.length_append]; omega)

theorem dustPre_length : dustPre.length = 11 := by decide

theorem txtSuf_length : txtSuf.length = 4 := by decide

/-- A filename that matches `DUSTMONITOR*{year}_{month}.txt` for a well-shaped
key has exactly that key as its sliced period key. -/
theorem periodKey_of_patMatch {fn : Str} {k : Key} (hw : wfKey k)
    (h : matchesStarPat dustPre (patOf k) fn = true) : periodKey fn = k := by
  obtain ⟨mid, rfl⟩ := matchesStarPat_iff.mp h
  obtain ⟨h4, h2⟩ := hw
  unfold periodKey
  have hy : pyNegSlice (dustPre ++ mid ++ patOf k) 11 7 = k.1 := by
    have hsh : dustPre ++ mid ++ patOf k =
        (dustPre ++ mid) ++ k.1 ++ ('_' :: (k.2 ++ txtSuf)) := by
      simp [patOf, List.append_assoc]
    have hw7 : ('_' :: (k.2 ++ txtSuf)).length = 7 := by
      simp [h2, txtSuf_length]
    have := pyNegSlice_spec (dustPre ++ mid) k.1 ('_' :: (k.2 ++ txtSuf))
    rw [h4, hw7] at this
    rw [hsh]
    exact this
  have hm : pyNegSlice (dustPre ++ mid ++ patOf k) 6 4 = k.2 := by
    have hsh : dustPre ++ mid ++ patOf k =
        (dustPre ++ mid ++ k.1 ++ ['_']) ++ k.2 ++ txtSuf := by
      simp [patOf, List.append_assoc]
    have := pyNegSlice_spec (dustPre ++ mid ++ k.1 ++ ['_']) k.2 txtSuf
    rw [h2, txtSuf_length] at this
    rw [hsh]
    exact this
  rw [hy, hm]

/-- On any name matching `DUSTMONITOR*.txt` the fixed slices produce a
four-character year and a two-character month. -/
theorem wfKey_of_match {fn : Str} (h : matchesStarPat dustPre txtSuf fn = true) :
    wfKey (periodKey fn) := by
  obtain ⟨mid, rfl⟩ := matchesStarPat_iff.mp h
  have hlen : (dustPre ++ mid ++ txtSuf).length = 15 + mid.length := by
    simp [dustPre_length, txtSuf_length]; omega
  constructor
  · simp only [periodKey, pyNegSlice, List.length_drop, List.length_take, hlen]
    omega
  · simp only [periodKey, pyNegSlice, List.length_drop, List.length_take, hlen]
    omega

theorem mem_matchingFiles {fc : List Str} {fn : Str} (h : fn ∈ matchingFiles fc) :
    matchesStarPat dustPre txtSuf fn = true :=
  (List.mem_filter.mp h).2

theorem wfKey_of_mem_keys {fc : List Str} {k : Key}
    (hk : k ∈ (matchingFiles fc).map periodKey) : wfKey k := by
  obtain ⟨fn, hfn, rfl⟩ := List.mem_map.mp hk
  exact wfKey_of_match (mem_matchingFiles hfn)

theorem splitAtClose_length :
    ∀ {l s r : Str}, splitAtClose l = Option.some (s, r) →
      s.length + r.length + 1 = l.length := by
  intro l
  induction l with
  | nil => intro s r h; simp [splitAtClose] at h
  | cons c t ih =>
    intro s r h
    by_cases hc : c = ']'
    · simp only [splitAtClose, if_pos hc] at h
      obtain ⟨rfl, rfl⟩ := Prod.mk.injEq .. ▸ Option.some.inj h
      simp
    · simp only [splitAtClose, if_neg hc] at h
      cases hsp : splitAtClose t with
      | none => rw [hsp] at h; cases h
      | some x =>
        obtain ⟨s0, r0⟩ := x
        rw [hsp] at h
        obtain ⟨rfl, rfl⟩ := Prod.mk.injEq .. ▸ Option.some.inj h
        have := ih hsp
        simp only [List.length_cons]
        omega

theorem classBody_rest_lt :
    ∀ {l s r : Str}, classBody l = Option.some (s, r) → r.length < l.length := by
  intro l s r h
  cases l with
  | nil => simp [classBody] at h
  | cons c t =>
    by_cases hc : c = ']'
    · simp only [classBody, if_pos hc] at h
      cases hsp : splitAtClose t with
      | none => rw [hsp] at h; cases h
      | some x =>
        obtain ⟨s0, r0⟩ := x
        rw [hsp] at h
        obtain ⟨rfl, rfl⟩ := Prod.mk.injEq .. ▸ Option.some.inj h
        have := splitAtClose_length hsp
        simp only [List.length_cons]
        omega
    · simp only [classBody, if_neg hc] at h
      have := splitAtClose_length h
      omega

theorem classSpec_rest_lt :
    ∀ {l : Str} {neg : Bool} {s r : Str},
      classSpec l = Option.some (neg, s, r) → r.length < l.length := by
  intro l neg s r h
  cases l with
  | nil => simp [classSpec] at h
  | cons c t =>
    by_cases hc : c = '!'
    · simp only [classSpec, if_pos hc] at h
      cases hcb : classBody t with
      | none => rw [hcb] at h; cases h
      | some x =>
        obtain ⟨s0, r0⟩ := x
        rw [hcb] at h
        obtain ⟨rfl, rfl, rfl⟩ : neg = true ∧ s0 = s ∧ r0 = r := by
          cases h; exact ⟨rfl, rfl, rfl⟩
        have := classBody_rest_lt hcb
        simp only [List.length_cons]
        omega
    · simp only [classSpec, if_neg hc] at h
      cases hcb : classBody (c :: t) with
      | none => rw [hcb] at h; cases h
      | some x =>
        obtain ⟨s0, r0⟩ := x
        rw [hcb] at h
        obtain ⟨rfl, rfl, rfl⟩ : neg = false ∧ s0 = s ∧ r0 = r := by
          cases h; exact ⟨rfl, rfl, rfl⟩
        exact classBody_rest_lt hcb

theorem globMatchFuel_congr :
    ∀ (f g : Nat) (pat s : Str),
      pat.length + s.length < f → pat.length + s.length < g →
      globMatchFuel f pat s = globMatchFuel g pat s := by
  intro f
  induction f with
  | zero => intro g pat s hf _; omega
  | succ f ih =>
    intro g pat s hf hg
    cases g with
    | zero => omega
    | succ g =>
      cases pat with
      | nil => rfl
      | cons c ps =>
        simp only [List.length_cons] at hf hg
        cases s with
        | nil =>
          simp only [globMatchFuel]
          split_ifs with h1 h2 h3
          · rw [ih g ps [] (by omega) (by omega)]
          · rfl
          · cases hcs : classSpec ps with
            | none => simp only [hcs]
            | some x =>
              obtain ⟨neg, stuff, rest⟩ := x
              simp only [hcs]
          · rfl
        | cons d s' =>
          simp only [List.length_cons] at hf hg
          simp only [globMatchFuel]
          split_ifs with h1 h2 h3
          · rw [ih g ps (d :: s')
                (by simp only [List.length_cons]; omega)
                (by simp only [List.length_cons]; omega),
              ih g (c :: ps) s'
                (by simp only [List.length_cons]; omega)
                (by simp only [List.length_cons]; omega)]
          · exact ih g ps s' (by omega) (by omega)
          · cases hcs : classSpec ps with
            | none =>
              simp only [hcs]
              rw [ih g ps s' (by omega) (by omega)]
            | some x =>
              obtain ⟨neg, stuff, rest⟩ := x
              have hrl := classSpec_rest_lt hcs
              simp only [hcs]
              rw [ih g rest s' (by omega) (by omega)]
          · rw [ih g ps s' (by omega) (by omega)]

theorem globMatch_eq_fuel {f : Nat} {pat s : Str} (h : pat.length + s.length < f) :
    globMatch pat s = globMatchFuel f pat s :=
  globMatchFuel_congr _ f pat s (by omega) h

theorem isMeta_spec {c : Char} (hc : isMeta c = false) :
    c ≠ '*' ∧ c ≠ '?' ∧ c ≠ '[' := by
  simp only [isMeta, Bool.or_eq_false_iff, beq_eq_false_iff_ne] at hc
  exact ⟨hc.1.1, hc.1.2, hc.2⟩

theorem globMatch_nil_pat (s : Str) : globMatch [] s = s.isEmpty := rfl

theorem globMatchFuel_lit_nil {c : Char} (h1 : c ≠ '*') (h2 : c ≠ '?') (h3 : c ≠ '[')
    (f : Nat) (ps : Str) : globMatchFuel (f + 1) (c :: ps) [] = false := by
  simp only [globMatchFuel]
  rw [if_neg h1, if_neg h2, if_neg h3]

theorem globMatchFuel_lit_cons {c : Char} (h1 : c ≠ '*') (h2 : c ≠ '?') (h3 : c ≠ '[')
    (f : Nat) (ps : Str) (d : Char) (s' : Str) :
    globMatchFuel (f + 1) (c :: ps) (d :: s') = ((c == d) && globMatchFuel f ps s') := by
  simp only [globMatchFuel]
  rw [if_neg h1, if_neg h2, if_neg h3]

theorem globMatchFuel_star_nil (f : Nat) (ps : Str) :
    globMatchFuel (f + 1) ('*' :: ps) [] = globMatchFuel f ps [] := by
  simp only [globMatchFuel]
  rw [if_pos trivial]
  exact Bool.or_false _

theorem globMatchFuel_star_cons (f : Nat) (ps : Str) (d : Char) (s' : Str) :
    globMatchFuel (f + 1) ('*' :: ps) (d :: s') =
      (globMatchFuel f ps (d :: s') || globMatchFuel f ('*' :: ps) s') := by
  simp only [globMatchFuel]
  rw [if_pos trivial]

theorem globMatch_lit_nil {c : Char} (hc : isMeta c = false) (ps : Str) :
    globMatch (c :: ps) [] = false := by
  obtain ⟨h1, h2, h3⟩ := isMeta_spec hc
  unfold globMatch
  exact globMatchFuel_lit_nil h1 h2 h3 _ ps

theorem globMatch_lit_cons {c : Char} (hc : isMeta c = false) (ps : Str)
    (d : Char) (s' : Str) :
    globMatch (c :: ps) (d :: s') = ((c == d) && globMatch ps s') := by
  obtain ⟨h1, h2, h3⟩ := isMeta_spec hc
  unfold globMatch
  rw [globMatchFuel_lit_cons h1 h2 h3]
  congr 1
  exact globMatchFuel_congr _ _ ps s'
    (by simp only [List.length_cons]; omega) (by omega)

theorem globMatch_star_nil (ps : Str) : globMatch ('*' :: ps) [] = globMatch ps [] := by
  unfold globMatch
  rw [globMatchFuel_star_nil]
  exact globMatchFuel_congr _ _ ps []
    (by simp only [List.length_cons, List.length_nil]; omega) (by omega)

theorem globMatch_star_cons (ps : Str) (d : Char) (s' : Str) :
    globMatch ('*' :: ps) (d :: s') =
      (globMatch ps (d :: s') || globMatch ('*' :: ps) s') := by
  unfold globMatch
  rw [globMatchFuel_star_cons,
    globMatchFuel_congr _ (ps.length + (d :: s').length + 1) ps (d :: s')
      (by simp only [List.length_cons]; omega) (by omega),
    globMatchFuel_congr _ (('*' :: ps).length + s'.length + 1) ('*' :: ps) s'
      (by simp only [List.length_cons]; omega) (by omega)]

theorem metaFree_cons {c : Char} {t : Str} (h : metaFree (c :: t) = true) :
    isMeta c = false ∧ metaFree t = true := by
  simp only [metaFree, List.all_cons, Bool.and_eq_true, Bool.not_eq_eq_eq_not,
    Bool.not_true] at h
  exact ⟨h.1, h.2⟩

/-- A metacharacter-free pattern matches exactly itself. -/
theorem globMatch_literal {t : Str} (ht : metaFree t = true) :
    ∀ s, (globMatch t s = true ↔ s = t) := by
  induction t with
  | nil =>
    intro s
    rw [globMatch_nil_pat]
    simp [List.isEmpty_iff]
  | cons c t ih =>
    obtain ⟨hc, ht'⟩ := metaFree_cons ht
    intro s
    cases s with
    | nil =>
      rw [globMatch_lit_nil hc]
      simp
    | cons d s' =>
      rw [globMatch_lit_cons hc]
      simp only [Bool.and_eq_true, beq_iff_eq, ih ht', List.cons.injEq]
      constructor
      · rintro ⟨rfl, rfl⟩; exact ⟨rfl, rfl⟩
      · rintro ⟨rfl, rfl⟩; exact ⟨rfl, rfl⟩

/-- A star followed by a metacharacter-free tail matches exactly the strings
ending in that tail. -/
theorem globMatch_star_literal {t : Str} (ht : metaFree t = true) :
    ∀ s, (globMatch ('*' :: t) s = true ↔ ∃ u, s = u ++ t) := by
  intro s
  induction s with
  | nil =>
    rw [globMatch_star_nil, globMatch_literal ht]
    constructor
    · intro h; exact ⟨[], h⟩
    · rintro ⟨u, hu⟩
      have : u = [] ∧ t = [] := by
        constructor
        · cases u with
          | nil => rfl
          | cons a u' => cases hu
        · cases u with
          | nil => exact hu.symm
          | cons a u' => cases hu
      rw [this.2]
  | cons d s' ih =>
    rw [globMatch_star_cons]
    simp only [Bool.or_eq_true, globMatch_literal ht, ih]
    constructor
    · rintro (rfl | ⟨u, rfl⟩)
      · exact ⟨[], rfl⟩
      · exact ⟨d :: u, rfl⟩
    · rintro ⟨u, hu⟩
      cases u with
      | nil => left; exact hu
      | cons a u' =>
        right
        rw [List.cons_append] at hu
        injection hu with h1 h2
        exact ⟨u', h2⟩

/-- Matching against a pattern starting with a metacharacter-free literal
segment: the string starts with that segment and the rest matches the rest. -/
theorem globMatch_litPrefix {lit : Str} (hl : metaFree lit = true) (p : Str) :
    ∀ s, (globMatch (lit ++ p) s = true ↔
      ∃ s', s = lit ++ s' ∧ globMatch p s' = true) := by
  induction lit with
  | nil =>
    intro s
    simp
  | cons c l ih =>
    obtain ⟨hc, hl'⟩ := metaFree_cons hl
    intro s
    cases s with
    | nil =>
      rw [List.cons_append, globMatch_lit_nil hc]
      simp
    | cons d s' =>
      rw [List.cons_append, globMatch_lit_cons hc]
      constructor
      · intro h
        rw [Bool.and_eq_true, beq_iff_eq] at h
        obtain ⟨hcd, h2⟩ := h
        obtain ⟨s'', hs, hp⟩ := (ih hl' s').mp h2
        refine ⟨s'', ?_, hp⟩
        rw [List.cons_append, hcd, hs]
      · rintro ⟨s'', heq, hp⟩
        rw [List.cons_append] at heq
        injection heq with e1 e2
        rw [Bool.and_eq_true, beq_iff_eq]
        exact ⟨e1.symm, (ih hl' s').mpr ⟨s'', e2, hp⟩⟩

theorem bool_eq_of_iff {a b : Bool} (h : a = true ↔ b = true) : a = b := by
  cases a <;> cases b <;> simp_all

/-- For a pattern `pre ++ '*' ++ tail` whose parts are metacharacter-free,
full fnmatch semantics degenerates to the literal prefix/suffix match. -/
theorem globMatch_star_between {pre tail : Str} (hp : metaFree pre = true)
    (ht : metaFree tail = true) (fn : Str) :
    globMatch (pre ++ '*' :: tail) fn = matchesStarPat pre tail fn := by
  apply bool_eq_of_iff
  rw [globMatch_litPrefix hp, matchesStarPat_iff]
  constructor
  · rintro ⟨s', rfl, hg⟩
    obtain ⟨u, rfl⟩ := (globMatch_star_literal ht s').mp hg
    exact ⟨u, by rw [List.append_assoc]⟩
  · rintro ⟨mid, rfl⟩
    exact ⟨mid ++ tail, by rw [List.append_assoc],
      (globMatch_star_literal ht _).mpr ⟨mid, rfl⟩⟩

theorem metaFree_dustPre : metaFree dustPre = true := by decide

theorem metaFree_txtSuf : metaFree txtSuf = true := by decide

/-- The per-period fnmatch reduces to the literal star-pattern match when the
sliced year/month carry no metacharacters. -/
theorem globMatch_patFull {k : Key} (hmf : metaFree (patOf k) = true) (fn : Str) :
    globMatch (patFull k) fn = matchesStarPat dustPre (patOf k) fn := by
  unfold patFull
  exact globMatch_star_between metaFree_dustPre hmf fn

theorem metaFree_take {s : Str} (h : metaFree s = true) (n : Nat) :
    metaFree (s.take n) = true := by
  simp only [metaFree, List.all_eq_true] at *
  intro c hc
  exact h c (List.take_subset n s hc)

theorem metaFree_drop {s : Str} (h : metaFree s = true) (n : Nat) :
    metaFree (s.drop n) = true := by
  simp only [metaFree, List.all_eq_true] at *
  intro c hc
  exact h c (List.drop_subset n s hc)

theorem metaFree_pyNegSlice {s : Str} (h : metaFree s = true) (i j : Nat) :
    metaFree (pyNegSlice s i j) = true :=
  metaFree_drop (metaFree_take h _) _

theorem metaFree_patOf {k : Key} (h1 : metaFree k.1 = true)
    (h2 : metaFree k.2 = true) : metaFree (patOf k) = true := by
  simp only [metaFree, patOf, List.all_append, List.all_cons, Bool.and_eq_true] at *
  refine ⟨h1, ?_, h2, ?_⟩
  · decide
  · have := metaFree_txtSuf
    simpa [metaFree] using this

theorem metaFree_periodKey {fn : Str} (h : metaFree fn = true) :
    metaFree (patOf (periodKey fn)) = true := by
  unfold periodKey
  exact metaFree_patOf (metaFree_pyNegSlice h 11 7) (metaFree_pyNegSlice h 6 4)

/-- Adjacent-pairs descending order of a key list. -/
def keysSorted : List Key → Prop
  | [] => True
  | [_] => True
  | a :: b :: r => kLe b a ∧ keysSorted (b :: r)

/-- Adjacent-pairs descending order of the period keys along a filename list. -/
def periodsDesc : List Str → Prop
  | [] => True
  | [_] => True
  | x :: y :: r => kLe (periodKey y) (periodKey x) ∧ periodsDesc (y :: r)

/-- Every element except possibly the last one is absent from the local
directory: the walk stopped at the first locally present file. -/
def noLocalButLast (localFiles : List Str) : List Str → Prop
  | [] => True
  | [_] => True
  | x :: y :: r => x ∉ localFiles ∧ noLocalButLast localFiles (y :: r)

theorem keysSorted_tail {k : Key} {rest : List Key} (h : keysSorted (k :: rest)) :
    keysSorted rest := by
  cases rest with
  | nil => trivial
  | cons b r => exact h.2

theorem keysSorted_dom {k : Key} {rest : List Key} (h : keysSorted (k :: rest)) :
    ∀ k' ∈ rest, kLe k' k := by
  induction rest generalizing k with
  | nil => intro k' hk'; cases hk'
  | cons b r ih =>
    intro k' hk'
    rcases List.mem_cons.mp hk' with rfl | hk'
    · exact h.1
    · exact kLe_trans (ih h.2 k' hk') h.1

theorem keysSorted_of_pairwise {l : List Key} (h : l.Pairwise (fun a b => kLe b a)) :
    keysSorted l := by
  induction l with
  | nil => trivial
  | cons a t ih =>
    obtain ⟨hhead, htail⟩ := List.pairwise_cons.mp h
    cases t with
    | nil => trivial
    | cons b r => exact ⟨hhead b (List.mem_cons_self b r), ih htail⟩

theorem periodsDesc_cons {hd : Str} {l : List Str}
    (hdom : ∀ x ∈ l, kLe (periodKey x) (periodKey hd)) (h : periodsDesc l) :
    periodsDesc (hd :: l) := by
  cases l with
  | nil => trivial
  | cons y r => exact ⟨hdom y (List.mem_cons_self y r), h⟩

theorem noLocalButLast_cons {lf : List Str} {x : Str} {l : List Str}
    (hx : x ∉ lf) (h : noLocalButLast lf l) : noLocalButLast lf (x :: l) := by
  cases l with
  | nil => trivial
  | cons y r => exact ⟨hx, h⟩

/-- Soundness of the outer loop once the Python variable `fname` is bound to a
filename `b` that is the first listing-order match of its own period key and
whose key dominates every remaining period key; all walked keys are assumed
metacharacter-free, which makes each per-period fnmatch literal. -/
theorem walk_sound (fns lf : List Str) :
    ∀ (keys : List Key) (b : Str),
      keysSorted keys →
      (∀ k ∈ keys, wfKey k) →
      (∀ k ∈ keys, metaFree (patOf k) = true) →
      (∀ k ∈ keys, kLe k (periodKey b)) →
      firstMatch fns (periodKey b) = some b →
      ∃ l, walk fns lf keys (some b) = Except.ok l ∧
        (∀ x ∈ l, firstMatch fns (periodKey x) = some x) ∧
        (∀ x ∈ l, kLe (periodKey x) (periodKey b)) ∧
        periodsDesc l ∧
        noLocalButLast lf l ∧
        (∀ x ∈ l, x ∈ lf → ∀ y ∈ l, kLe (periodKey x) (periodKey y)) ∧
        (∀ k' rest', keys = k' :: rest' →
          ∃ fn tl, chooseName fns k' (some b) = some fn ∧ l = fn :: tl) := by
  intro keys
  induction keys with
  | nil =>
    intro b _ _ _ _ _
    refine ⟨[], rfl, ?_, ?_, trivial, trivial, ?_, ?_⟩
    · intro x hx; cases hx
    · intro x hx; cases hx
    · intro x hx; cases hx
    · intro k' rest' h; cases h
  | cons k rest ih =>
    intro b hs hw hmf hd hbfm
    obtain ⟨fn, hch, hfn_fm, hfnb, hdrest⟩ :
        ∃ fn, chooseName fns k (some b) = some fn ∧
          firstMatch fns (periodKey fn) = some fn ∧
          kLe (periodKey fn) (periodKey b) ∧
          (∀ k' ∈ rest, kLe k' (periodKey fn)) := by
      cases hfm : firstMatch fns k with
      | some fn =>
        have hms : matchesStarPat dustPre (patOf k) fn = true := by
          rw [← globMatch_patFull (hmf k (List.mem_cons_self k rest)) fn]
          exact List.find?_some hfm
        have hpk : periodKey fn = k :=
          periodKey_of_patMatch (hw k (List.mem_cons_self k rest)) hms
        refine ⟨fn, by simp [chooseName, hfm], by rw [hpk]; exact hfm,
          hpk ▸ hd k (List.mem_cons_self k rest), ?_⟩
        intro k' hk'
        rw [hpk]
        exact keysSorted_dom hs k' hk'
      | none =>
        refine ⟨b, by simp [chooseName, hfm], hbfm, kLe_refl _, ?_⟩
        intro k' hk'
        exact hd k' (List.mem_cons_of_mem k hk')
    by_cases hl : fn ∈ lf
    · refine ⟨[fn], ?_, ?_, ?_, trivial, trivial, ?_, ?_⟩
      · simp only [walk, hch, if_pos hl]
      · intro x hx
        rw [List.mem_singleton.mp hx]
        exact hfn_fm
      · intro x hx
        rw [List.mem_singleton.mp hx]
        exact hfnb
      · intro x hx _ y hy
        rw [List.mem_singleton.mp hx, List.mem_singleton.mp hy]
        exact kLe_refl _
      · intro k' rest' h
        exact ⟨fn, [], by rw [← (List.cons.injEq ..).mp h |>.1]; exact hch, rfl⟩
    · obtain ⟨l', h_ok, h_fm, h_dom, h_pd, h_nl, h_ld, _⟩ :=
        ih fn (keysSorted_tail hs) (fun k' hk' => hw k' (List.mem_cons_of_mem k hk'))
          (fun k' hk' => hmf k' (List.mem_cons_of_mem k hk')) hdrest hfn_fm
      refine ⟨fn :: l', ?_, ?_, ?_, ?_, ?_, ?_, ?_⟩
      · simp only [walk, hch, if_neg hl, h_ok, Except.map]
      · intro x hx
        rcases List.mem_cons.mp hx with rfl | hx
        · exact hfn_fm
        · exact h_fm x hx
      · intro x hx
        rcases List.mem_cons.mp hx with rfl | hx
        · exact hfnb
        · exact kLe_trans (h_dom x hx) hfnb
      · exact periodsDesc_cons h_dom h_pd
      · exact noLocalButLast_cons hl h_nl
      · intro x hx hxl y hy
        rcases List.mem_cons.mp hx with hxe | hx'
        · exact absurd (hxe ▸ hxl) hl
        · rcases List.mem_cons.mp hy with hye | hy'
          · rw [hye]
            exact h_dom x hx'
          · exact h_ld x hx' hxl y hy'
      · intro k' rest' h
        exact ⟨fn, l', by rw [← (List.cons.injEq ..).mp h |>.1]; exact hch, rfl⟩

/-- Master soundness theorem for `files_to_be_downloaded` under the two
hypotheses that make the Python function return a list at all: at least one
listing filename matches `DUSTMONITOR*.txt`, and the newest period key's
per-period pattern is matched by some listing filename (otherwise the first
iteration of the outer loop raises `UnboundLocalError`). -/
theorem ftbd_master (fc lf : List Str)
    (hne : matchingFiles fc ≠ [])
    (hmeta : ∀ fn ∈ matchingFiles fc, metaFree fn = true)
    (hbind : ∃ fn ∈ matchingFiles fc,
      globMatch (patFull (newestKey fc)) fn = true) :
    ∃ l, files_to_be_downloaded fc lf = FtbdResult.files l ∧
      ∃ hd tl, l = hd :: tl ∧
        hd ∈ matchingFiles fc ∧
        periodKey hd = newestKey fc ∧
        (∀ fn ∈ matchingFiles fc, kLe (periodKey fn) (periodKey hd)) ∧
        (∀ x ∈ l, firstMatch (matchingFiles fc) (periodKey x) = some x) ∧
        (∀ x ∈ l, x ∈ matchingFiles fc) ∧
        periodsDesc l ∧
        noLocalButLast lf l ∧
        (∀ x ∈ l, x ∈ lf → ∀ y ∈ l, kLe (periodKey x) (periodKey y)) := by
  have hlen : (sortedKeysDesc (matchingFiles fc)).length = (matchingFiles fc).length := by
    unfold sortedKeysDesc
    rw [List.length_reverse, (List.perm_insertionSort kLe _).length_eq, List.length_map]
  obtain ⟨k0, rest, hkd⟩ := List.exists_cons_of_ne_nil
    (show sortedKeysDesc (matchingFiles fc) ≠ [] by
      intro h
      apply hne
      apply List.length_eq_zero.mp
      rw [← hlen, h]
      rfl)
  have hnk : newestKey fc = k0 := by
    unfold newestKey
    rw [hkd]
    rfl
  have hperm :
      List.Perm (sortedKeysDesc (matchingFiles fc)) ((matchingFiles fc).map periodKey) := by
    unfold sortedKeysDesc
    exact (List.insertionSort kLe _).reverse_perm.trans (List.perm_insertionSort kLe _)
  have hPW : (sortedKeysDesc (matchingFiles fc)).Pairwise (fun a b => kLe b a) := by
    unfold sortedKeysDesc
    exact List.pairwise_reverse.mpr (List.sorted_insertionSort kLe _)
  have hwf : ∀ k ∈ sortedKeysDesc (matchingFiles fc), wfKey k := by
    intro k hk
    exact wfKey_of_mem_keys (hperm.mem_iff.mp hk)
  have hkeymf : ∀ k ∈ sortedKeysDesc (matchingFiles fc), metaFree (patOf k) = true := by
    intro k hk
    obtain ⟨fn1, hfn1, rfl⟩ := List.mem_map.mp (hperm.mem_iff.mp hk)
    exact metaFree_periodKey (hmeta fn1 hfn1)
  obtain ⟨fn0, hfn0mem, hfn0pat⟩ := hbind
  have hfm0ex : (firstMatch (matchingFiles fc) k0).isSome := by
    unfold firstMatch
    rw [List.find?_isSome]
    exact ⟨fn0, hfn0mem, by rw [← hnk]; exact hfn0pat⟩
  obtain ⟨fm0, hfm0⟩ := Option.isSome_iff_exists.mp hfm0ex
  have hPWc : (k0 :: rest).Pairwise (fun a b => kLe b a) := by
    rw [← hkd]
    exact hPW
  have hk0mem : k0 ∈ sortedKeysDesc (matchingFiles fc) := by
    rw [hkd]; exact List.mem_cons_self k0 rest
  have hk0wf : wfKey k0 := hwf k0 hk0mem
  have hpk0 : periodKey fm0 = k0 := by
    apply periodKey_of_patMatch hk0wf
    rw [← globMatch_patFull (hkeymf k0 hk0mem) fm0]
    exact List.find?_some hfm0
  have hfm0mem : fm0 ∈ matchingFiles fc := List.mem_of_find?_eq_some hfm0
  have hrest_dom : ∀ k' ∈ rest, kLe k' k0 :=
    (List.pairwise_cons.mp hPWc).1
  have hdomAll : ∀ fn ∈ matchingFiles fc, kLe (periodKey fn) k0 := by
    intro fn hfn
    have hmem : periodKey fn ∈ sortedKeysDesc (matchingFiles fc) :=
      hperm.mem_iff.mpr (List.mem_map_of_mem periodKey hfn)
    rw [hkd] at hmem
    rcases List.mem_cons.mp hmem with h | h
    · rw [h]; exact kLe_refl _
    · exact hrest_dom _ h
  have hfm0fm : firstMatch (matchingFiles fc) (periodKey fm0) = some fm0 := by
    rw [hpk0]; exact hfm0
  have hks : keysSorted (k0 :: rest) := keysSorted_of_pairwise hPWc
  obtain ⟨l, h_ok, h_fm, h_dom, h_pd, h_nl, h_ld, h_hd⟩ :=
    walk_sound (matchingFiles fc) lf (k0 :: rest) fm0 hks
      (fun k hk => hwf k (by rw [hkd]; exact hk))
      (fun k hk => hkeymf k (by rw [hkd]; exact hk))
      (by
        intro k hk
        rw [hpk0]
        rcases List.mem_cons.mp hk with rfl | hk
        · exact kLe_refl _
        · exact hrest_dom _ hk)
      hfm0fm
  have hwalk_none : walk (matchingFiles fc) lf (k0 :: rest) Option.none =
      walk (matchingFiles fc) lf (k0 :: rest) (some fm0) := by
    simp only [walk, chooseName, hfm0]
  obtain ⟨fn, tl, hchfn, hltl⟩ := h_hd k0 rest rfl
  have hfn_eq : fn = fm0 := by
    have : chooseName (matchingFiles fc) k0 (some fm0) = some fm0 := by
      simp [chooseName, hfm0]
    rw [this] at hchfn
    exact (Option.some.inj hchfn).symm
  subst hfn_eq
  refine ⟨l, ?_, fn, tl, hltl, hfm0mem, hpk0.trans hnk.symm, ?_, h_fm, ?_, h_pd, h_nl, h_ld⟩
  · unfold files_to_be_downloaded
    rw [if_neg hne, hkd, hwalk_none, h_ok]
  · intro f hf
    rw [hpk0]
    exact hdomAll f hf
  · intro x hx
    exact List.mem_of_find?_eq_some (h_fm x hx)

theorem sortedKeysDesc_length (fns : List Str) :
    (sortedKeysDesc fns).length = fns.length := by
  unfold sortedKeysDesc
  rw [List.length_reverse, (List.perm_insertionSort kLe _).length_eq, List.length_map]

/-- A single step of the outer loop never returns an empty list: it either
raises, stops at a locally present file, or appends and recurses. -/
theorem walk_cons_ne_nil {fns lf : List Str} {k : Key} {rest : List Key}
    {bound : Option Str} {l : List Str}
    (h : walk fns lf (k :: rest) bound = Except.ok l) : l ≠ [] := by
  unfold walk at h
  cases hch : chooseName fns k bound with
  | none => simp only [hch] at h; cases h
  | some fn =>
    simp only [hch] at h
    by_cases hm : fn ∈ lf
    · rw [if_pos hm] at h
      cases h
      simp
    · rw [if_neg hm] at h
      cases hw : walk fns lf rest (some fn) with
      | ok l' =>
        rw [hw] at h
        simp only [Except.map] at h
        cases h
        simp
      | error e =>
        rw [hw] at h
        simp [Except.map] at h

/-- `files_to_be_downloaded` returns the `None` sentinel exactly when no
listing filename matches `DUSTMONITOR*.txt`. -/
theorem ftbd_none_iff (fc lf : List Str) :
    files_to_be_downloaded fc lf = FtbdResult.none ↔ matchingFiles fc = [] := by
  constructor
  · intro h
    by_contra hne
    unfold files_to_be_downloaded at h
    rw [if_neg hne] at h
    cases hw : walk (matchingFiles fc) lf (sortedKeysDesc (matchingFiles fc)) Option.none with
    | ok l => rw [hw] at h; cases h
    | error e => rw [hw] at h; cases h
  · intro h
    unfold files_to_be_downloaded
    rw [if_pos h]

/-- The function never returns an empty list: the empty-looking outcome is the
distinguished `None` sentinel, not a valid empty result. -/
theorem ftbd_ne_files_nil (fc lf : List Str) :
    files_to_be_downloaded fc lf ≠ FtbdResult.files [] := by
  unfold files_to_be_downloaded
  by_cases h : matchingFiles fc = []
  · rw [if_pos h]
    intro hc
    cases hc
  · rw [if_neg h]
    obtain ⟨k0, rest, hkd⟩ := List.exists_cons_of_ne_nil
      (show sortedKeysDesc (matchingFiles fc) ≠ [] by
        intro hnil
        apply h
        apply List.length_eq_zero.mp
        rw [← sortedKeysDesc_length, hnil]
        rfl)
    rw [hkd]
    cases hw : walk (matchingFiles fc) lf (k0 :: rest) Option.none with
    | ok l =>
      intro hc
      cases hc
      exact walk_cons_ne_nil hw rfl
    | error e =>
      intro hc
      cases hc

/-- Exceptions that the `except` clause of the main loop (lines 360-361) can
catch in the embedded model. -/
inductive PyErr where
  | connError : PyErr
  | noFiles : PyErr
  | unboundLocal : PyErr
  | ftpTimeout : PyErr
  | convError : PyErr
  | negSleep : PyErr
deriving DecidableEq

/-- `DownloadInterval = 60*10` seconds (line 27 of the source). -/
def DownloadInterval : Int := 60 * 10

/-- `MaxTimeAllowed = 60*3` seconds (line 28 of the source): the hard
wall-clock deadline of a single file transfer. -/
def MaxTimeAllowed : Int := 60 * 3

/-- The inputs one iteration of the main loop depends on: the remote listing
(`none` models `open_ftp_get_file_list` raising a connection error), the local
directory contents, the outcome of download+conversion per selected file
(`some e` models that step raising `e`), and the measured elapsed time of the
cycle in seconds. -/
structure CycleEnv where
  listing : Option (List Str)
  localFiles : List Str
  fileResult : Str → Option PyErr
  elapsed : Int

/-- The `for fname in to_be_downloaded` body (lines 351-355): process files in
order; the first raised exception aborts the rest of the cycle. -/
def processFiles (f : Str → Option PyErr) : List Str → Except PyErr Unit
  | [] => Except.ok ()
  | x :: xs =>
    match f x with
    | some e => Except.error e
    | none => processFiles f xs

/-- Python's `time.sleep(d)`: raises `ValueError` for a negative duration,
otherwise sleeps `d` seconds.  The source (line 359) passes
`DownloadInterval - elapsed_time` with no clamping. -/
def sleepCall (d : Int) : Except PyErr Int :=
  if d < 0 then Except.error PyErr.negSleep else Except.ok d

/-- The `try` block of one main-loop iteration (lines 340-359): list the
remote folder, select files, raise `ValueError` on the `None` sentinel,
download and convert each file, then sleep the residual interval.  Returns the
slept duration on full success. -/
def rawCycle (env : CycleEnv) : Except PyErr Int :=
  match env.listing with
  | Option.none => Except.error PyErr.connError
  | Option.some fc =>
    match files_to_be_downloaded fc env.localFiles with
    | FtbdResult.none => Except.error PyErr.noFiles
    | FtbdResult.error => Except.error PyErr.unboundLocal
    | FtbdResult.files l =>
      match processFiles env.fileResult l with
      | Except.error e => Except.error e
      | Except.ok _ => sleepCall (DownloadInterval - env.elapsed)

/-- Observable outcome of one `while True` iteration: either the cycle
completed and slept `d` seconds, or an exception was caught and printed by the
`except` clause (and no sleep happened). -/
inductive CycleOutcome where
  | slept : Int → CycleOutcome
  | caught : PyErr → CycleOutcome
deriving DecidableEq

/-- One iteration of the main loop (lines 339-361): the `try` body wrapped in
the catch-all `except Exception` clause. -/
def pollCycle (env : CycleEnv) : CycleOutcome :=
  match rawCycle env with
  | Except.ok d => CycleOutcome.slept d
  | Except.error e => CycleOutcome.caught e

/-- How long the iteration slept, if at all. -/
def sleepOf : CycleOutcome → Option Int
  | CycleOutcome.slept d => Option.some d
  | CycleOutcome.caught _ => Option.none

/-- The infinite polling loop: the outcome of the `n`-th iteration given the
per-iteration environments. -/
def pollTrace (envs : Nat → CycleEnv) (n : Nat) : CycleOutcome :=
  pollCycle (envs n)

/-- The local target directory as a map from filename to file content (a list
of abstract bytes); `Option.none` means the name does not exist.  All names
the source builds are `f"{local_path}/<name>"` for the one fixed `local_path`,
so the directory-relative name identifies the path. -/
def FS := Str → Option (List Nat)

/-- Writing (or truncating) one file. -/
def fsSet (fs : FS) (name : Str) (v : Option (List Nat)) : FS :=
  fun n => if n = name then v else fs n

/-- `os.rename(src, dst)`: atomically installs the content of `src` under
`dst` and removes `src`. -/
def renameFS (fs : FS) (src dst : Str) : FS :=
  fun n => if n = dst then fs src else if n = src then Option.none else fs n

/-- The fixed staging name `temporary_dust_file.txt` used by
`download_data_file` (lines 107-108). -/
def stagingTxt : Str := "temporary_dust_file.txt".toList

/-- The fixed staging name `temporary_dust_file.nc` used by
`convert_to_netCFD4` (lines 123 and 332). -/
def stagingNc : Str := "temporary_dust_file.nc".toList

/-- The suffix of the converted artifact's name. -/
def ncSuffix : Str := ".nc".toList

/-- `f"{filename[:-4]}.nc"`, the final name of the converted artifact
(line 333). -/
def ncName (fname : Str) : Str :=
  fname.take (fname.length - 4) ++ ncSuffix

/-- The filesystem after `open(staging, 'wb')` followed by the first `i` chunk
writes of the transfer callback (`fp.write` in `_get_ftp_file`, line 101) or
of the netCDF variable writes: the staging name holds the concatenation of
the first `i` chunks, nothing else has changed.  Interrupting the operation
(timeout, parse error, crash) anywhere before the rename leaves the
filesystem in one of these states. -/
def stagedAt (fs0 : FS) (staging : Str) (chunks : List (List Nat)) (i : Nat) : FS :=
  fsSet fs0 staging (Option.some ((chunks.take i).flatten))

/-- The filesystem after the full write of every chunk followed by
`os.rename(staging, finalName)` (lines 108-109 and 332-333). -/
def publishAt (fs0 : FS) (staging finalName : Str) (chunks : List (List Nat)) : FS :=
  renameFS (stagedAt fs0 staging chunks chunks.length) staging finalName

/-- Outcome of the guarded transfer: the `signal.alarm(MaxTimeAllowed)` timer
either never fires (`ok`) or fires after `i` chunks were written
(`timeoutAfter i`). -/
inductive Xfer where
  | ok : Xfer
  | timeoutAfter : Nat → Xfer

/-- `download_data_file(ftpobj, local_path, filename)` (lines 103-112): writes
the stream to `temporary_dust_file.txt` and renames it to `filename` on
success; on timeout the `with` block closes the partial staging file, the
handler re-raises `FTPTimeoutError` to the caller, and no rename or deletion
happens.  The error value carries the filesystem left behind. -/
def download_data_file (fs0 : FS) (fname : Str) (chunks : List (List Nat)) :
    Xfer → Except (PyErr × FS) FS
  | Xfer.ok => Except.ok (publishAt fs0 stagingTxt fname chunks)
  | Xfer.timeoutAfter i => Except.error (PyErr.ftpTimeout, stagedAt fs0 stagingTxt chunks i)

theorem ne_of_head {x y : Str} (h : x.head? ≠ y.head?) : x ≠ y :=
  fun e => h (e ▸ rfl)

theorem match_head {fn : Str} (h : matchesStarPat dustPre txtSuf fn = true) :
    fn.head? = some 'D' := by
  obtain ⟨mid, rfl⟩ := matchesStarPat_iff.mp h
  have hD : dustPre = 'D' :: "USTMONITOR".toList := by decide
  rw [hD]
  rfl

theorem match_ne_stagingTxt {fn : Str} (h : matchesStarPat dustPre txtSuf fn = true) :
    fn ≠ stagingTxt := by
  apply ne_of_head
  rw [match_head h]
  decide

theorem ncName_head {fn : Str} (h : matchesStarPat dustPre txtSuf fn = true) :
    (ncName fn).head? = some 'D' := by
  obtain ⟨mid, rfl⟩ := matchesStarPat_iff.mp h
  have htake : (dustPre ++ mid ++ txtSuf).take ((dustPre ++ mid ++ txtSuf).length - 4) =
      dustPre ++ mid := by
    apply List.take_left'
    simp only [List.length_append, txtSuf_length]
    omega
  unfold ncName
  rw [htake]
  have hD : dustPre = 'D' :: "USTMONITOR".toList := by decide
  rw [hD]
  rfl

theorem ncName_ne_stagingNc {fn : Str} (h : matchesStarPat dustPre txtSuf fn = true) :
    ncName fn ≠ stagingNc := by
  apply ne_of_head
  rw [ncName_head h]
  decide

theorem stagedAt_other {fs0 : FS} {staging name : Str} {chunks : List (List Nat)} {i : Nat}
    (h : name ≠ staging) : stagedAt fs0 staging chunks i name = fs0 name := by
  simp [stagedAt, fsSet, h]

theorem stagedAt_self (fs0 : FS) (staging : Str) (chunks : List (List Nat)) (i : Nat) :
    stagedAt fs0 staging chunks i staging = Option.some ((chunks.take i).flatten) := by
  simp [stagedAt, fsSet]

theorem publishAt_final {fs0 : FS} {staging finalName : Str} {chunks : List (List Nat)} :
    publishAt fs0 staging finalName chunks finalName = Option.some chunks.flatten := by
  simp [publishAt, renameFS, stagedAt_self, List.take_length]

theorem publishAt_staging {fs0 : FS} {staging finalName : Str} {chunks : List (List Nat)}
    (h : staging ≠ finalName) : publishAt fs0 staging finalName chunks staging = Option.none := by
  simp [publishAt, renameFS, h]

/-- The 8 power-of-two weights of the error bit field (line 258). -/
def errorsWeights : List Nat := [1, 2, 4, 8, 16, 32, 64, 128]

/-- Line 257-259 of `convert_to_netCFD4`: the `errors` value of one parsed
row, whose column values are the `row` list: the dot product of columns 11-18
(0-indexed) of the parsed table with the weight vector, truncated to `uint8`
by `astype(np.uint8)`. -/
def errorsOf (row : List Nat) : Nat :=
  (List.zipWith (fun a b => a * b) ((row.drop 11).take 8) errorsWeights).sum % 256

/-- The name pandas gives the column merged from `date` and `time` by
`parse_dates=[['date', 'time']]` (line 120). -/
def dateTimeCol : Str := "date_time".toList

/-- The header of the parsed table `dustdata`: pandas
`parse_dates=[['date', 'time']]` merges the first two raw columns into a
single `date_time` column and places it first, so column `k ≥ 1` of the
parsed table is raw column `k + 1`. -/
def mergedColumns (rawHeader : List Str) : List Str :=
  dateTimeCol :: rawHeader.drop 2

/-- `dustdata.columns[43:121]` (line 121): the size-channel column labels. -/
def sizesLabels (header : List Str) : List Str :=
  (header.drop 43).take 78

/-- `[float(x) for x in sizes_labels]` (line 130), with the float parser left
abstract: the coordinate values of the `sizes` dimension, in header order. -/
def sizesCoords {α : Type} (parse : Str → α) (header : List Str) : List α :=
  (sizesLabels header).map parse

/-- Position of the (first) column whose label equals `lb`: pandas
label-based column selection for a frame with unique labels. -/
def colIndex (header : List Str) (lb : Str) : Nat :=
  header.findIdx (fun c => c = lb)

/-- `dustdata[sizes_labels]` for one row (line 217): the row values of the
columns selected by the size-channel labels, in label order — the second axis
of the `spectra` variable. -/
def spectraRow {β : Type} (dflt : β) (header : List Str) (row : List β) : List β :=
  (sizesLabels header).map (fun lb => row.getD (colIndex header lb) dflt)

theorem colIndex_getElem {header : List Str} (hN : header.Nodup) {i : Nat}
    (hi : i < header.length) : colIndex header header[i] = i := by
  induction header generalizing i with
  | nil => cases hi
  | cons h t ih =>
    cases i with
    | zero => simp [colIndex, List.findIdx_cons]
    | succ j =>
      have hj : j < t.length := by
        simpa using hi
      have hne : ¬(h = t[j]) := by
        intro he
        exact (List.nodup_cons.mp hN).1 (he ▸ List.getElem_mem hj)
      have hrec := ih (List.nodup_cons.mp hN).2 hj
      simp only [colIndex, List.findIdx_cons] at *
      simp [List.getElem_cons_succ, hne, hrec]

theorem keysSorted_sortedKeysDesc (fns : List Str) : keysSorted (sortedKeysDesc fns) := by
  apply keysSorted_of_pairwise
  unfold sortedKeysDesc
  exact List.pairwise_reverse.mpr (List.sorted_insertionSort kLe _)

theorem sortedKeysDesc_perm (fns : List Str) :
    List.Perm (sortedKeysDesc fns) (fns.map periodKey) := by
  unfold sortedKeysDesc
  exact (List.insertionSort kLe _).reverse_perm.trans (List.perm_insertionSort kLe _)

/-- C1 (counterexample): the claim quantifies over every remote listing with
at least one filename matching the instrument pattern, but on this listing —
which even contains a fully well-formed `DUSTMONITOR_2024_01.txt` — the
function raises `UnboundLocalError` instead of returning a list: the junk
name `DUSTMONITORX.txt` also matches `DUSTMONITOR*.txt`, its sliced period
key `("ONIT", "RX")` sorts above `("2024", "01")`, and no filename matches
`DUSTMONITOR*ONIT_RX.txt`, so the first outer-loop iteration reads the
never-assigned variable `fname`. -/
theorem C1_counterexample :
    "DUSTMONITOR_2024_01.txt".toList ∈
      matchingFiles ["DUSTMONITOR_2024_01.txt".toList, "DUSTMONITORX.txt".toList] ∧
    files_to_be_downloaded
      ["DUSTMONITOR_2024_01.txt".toList, "DUSTMONITORX.txt".toList] [] =
      FtbdResult.error := by
  constructor
  · decide
  · decide

/-- C1 (amended): for every remote listing whose filenames matching
`DUSTMONITOR*.txt` are all free of fnmatch metacharacters (`*`, `?`, `[`),
with at least one such filename, and in which some listed filename
fnmatch-matches the newest period key's per-period pattern (otherwise the
first loop iteration raises `UnboundLocalError`), and every local directory
state, `files_to_be_downloaded` returns a list whose first element is a
matching filename of the single newest remote period; the walk appends
filenames with never-increasing period keys; every element except possibly
the last is absent locally (the walk stops as soon as an appended filename
already exists locally, fetching that file once more); and no element's
period is older than the period of a locally present element. -/
theorem C1_selection (fc lf : List Str)
    (hne : matchingFiles fc ≠ [])
    (hmeta : ∀ fn ∈ matchingFiles fc, metaFree fn = true)
    (hbind : ∃ fn ∈ matchingFiles fc,
      globMatch (patFull (newestKey fc)) fn = true) :
    ∃ l, files_to_be_downloaded fc lf = FtbdResult.files l ∧
      (∃ hd tl, l = hd :: tl ∧ hd ∈ matchingFiles fc ∧
        (∀ fn ∈ matchingFiles fc, kLe (periodKey fn) (periodKey hd))) ∧
      periodsDesc l ∧
      noLocalButLast lf l ∧
      (∀ x ∈ l, x ∈ lf → ∀ y ∈ l, kLe (periodKey x) (periodKey y)) := by
  obtain ⟨l, hfiles, hd, tl, hcons, hmem, _, hdom, _, _, hpd, hnl, hld⟩ :=
    ftbd_master fc lf hne hmeta hbind
  exact ⟨l, hfiles, ⟨hd, tl, hcons, hmem, hdom⟩, hpd, hnl, hld⟩

/-- C1 (witness): the spec's end-to-end scenario — remote periods 2024-01,
2024-02, 2024-03, local directory holding only the 2024-01 file — satisfies
all three hypotheses, and the amended claim applies. -/
theorem C1_selection_witness :
    matchingFiles
      ["DUSTMONITOR_2024_03.txt".toList, "DUSTMONITOR_2024_02.txt".toList,
        "DUSTMONITOR_2024_01.txt".toList] ≠ [] ∧
    (∀ fn ∈ matchingFiles
      ["DUSTMONITOR_2024_03.txt".toList, "DUSTMONITOR_2024_02.txt".toList,
        "DUSTMONITOR_2024_01.txt".toList], metaFree fn = true) ∧
    (∃ fn ∈ matchingFiles
      ["DUSTMONITOR_2024_03.txt".toList, "DUSTMONITOR_2024_02.txt".toList,
        "DUSTMONITOR_2024_01.txt".toList],
      globMatch (patFull (newestKey
        ["DUSTMONITOR_2024_03.txt".toList, "DUSTMONITOR_2024_02.txt".toList,
          "DUSTMONITOR_2024_01.txt".toList])) fn = true) ∧
    (∃ l, files_to_be_downloaded
        ["DUSTMONITOR_2024_03.txt".toList, "DUSTMONITOR_2024_02.txt".toList,
          "DUSTMONITOR_2024_01.txt".toList]
        ["DUSTMONITOR_2024_01.txt".toList] = FtbdResult.files l ∧
      (∃ hd tl, l = hd :: tl ∧ hd ∈ matchingFiles
          ["DUSTMONITOR_2024_03.txt".toList, "DUSTMONITOR_2024_02.txt".toList,
            "DUSTMONITOR_2024_01.txt".toList] ∧
        (∀ fn ∈ matchingFiles
            ["DUSTMONITOR_2024_03.txt".toList, "DUSTMONITOR_2024_02.txt".toList,
              "DUSTMONITOR_2024_01.txt".toList],
          kLe (periodKey fn) (periodKey hd))) ∧
      periodsDesc l ∧
      noLocalButLast ["DUSTMONITOR_2024_01.txt".toList] l ∧
      (∀ x ∈ l, x ∈ ["DUSTMONITOR_2024_01.txt".toList] →
        ∀ y ∈ l, kLe (periodKey x) (periodKey y))) :=
  ⟨by decide, by decide, by decide,
    C1_selection
      ["DUSTMONITOR_2024_03.txt".toList, "DUSTMONITOR_2024_02.txt".toList,
        "DUSTMONITOR_2024_01.txt".toList]
      ["DUSTMONITOR_2024_01.txt".toList] (by decide) (by decide) (by decide)⟩

/-- C3 (counterexample): two distinct remote filenames share the period key
`("2024", "01")`; the code does not deduplicate the sorted key list, so the
returned list holds the first listing-order match twice — not exactly one
entry for that period. -/
theorem C3_counterexample :
    files_to_be_downloaded
      ["DUSTMONITOR_A_2024_01.txt".toList, "DUSTMONITOR_B_2024_01.txt".toList] [] =
      FtbdResult.files
        ["DUSTMONITOR_A_2024_01.txt".toList, "DUSTMONITOR_A_2024_01.txt".toList] ∧
    List.countP
      (fun fn => decide (periodKey fn = ("2024".toList, "01".toList)))
      ["DUSTMONITOR_A_2024_01.txt".toList, "DUSTMONITOR_A_2024_01.txt".toList] = 2 := by
  constructor
  · decide
  · decide

/-- C3 (amended): on listings whose matching filenames are free of fnmatch
metacharacters, `files_to_be_downloaded` sorts the period keys descending
*with multiplicity* (duplicates are kept, so a period with several filenames
is walked once per duplicate), the walked key sequence is a descending
permutation of the multiset of all matching filenames' keys, and every
filename the function returns is the first fnmatch-match in listing order of
its own period key. -/
theorem C3_tiebreak (fc lf : List Str)
    (hne : matchingFiles fc ≠ [])
    (hmeta : ∀ fn ∈ matchingFiles fc, metaFree fn = true)
    (hbind : ∃ fn ∈ matchingFiles fc,
      globMatch (patFull (newestKey fc)) fn = true) :
    keysSorted (sortedKeysDesc (matchingFiles fc)) ∧
    List.Perm (sortedKeysDesc (matchingFiles fc)) ((matchingFiles fc).map periodKey) ∧
    ∃ l, files_to_be_downloaded fc lf = FtbdResult.files l ∧
      ∀ x ∈ l, firstMatch (matchingFiles fc) (periodKey x) = some x := by
  obtain ⟨l, hfiles, _, _, _, _, _, _, hfm, _, _, _, _⟩ := ftbd_master fc lf hne hmeta hbind
  exact ⟨keysSorted_sortedKeysDesc _, sortedKeysDesc_perm _, l, hfiles, hfm⟩

/-- C3 (witness): the duplicate-key listing itself: both returned entries are
the first listing-order match of the shared period. -/
theorem C3_tiebreak_witness :
    matchingFiles
      ["DUSTMONITOR_A_2024_01.txt".toList, "DUSTMONITOR_B_2024_01.txt".toList] ≠ [] ∧
    (∀ fn ∈ matchingFiles
        ["DUSTMONITOR_A_2024_01.txt".toList, "DUSTMONITOR_B_2024_01.txt".toList],
      metaFree fn = true) ∧
    (∃ fn ∈ matchingFiles
        ["DUSTMONITOR_A_2024_01.txt".toList, "DUSTMONITOR_B_2024_01.txt".toList],
      globMatch (patFull (newestKey
        ["DUSTMONITOR_A_2024_01.txt".toList, "DUSTMONITOR_B_2024_01.txt".toList]))
        fn = true) ∧
    (keysSorted (sortedKeysDesc (matchingFiles
        ["DUSTMONITOR_A_2024_01.txt".toList, "DUSTMONITOR_B_2024_01.txt".toList])) ∧
      List.Perm
        (sortedKeysDesc (matchingFiles
          ["DUSTMONITOR_A_2024_01.txt".toList, "DUSTMONITOR_B_2024_01.txt".toList]))
        ((matchingFiles
          ["DUSTMONITOR_A_2024_01.txt".toList, "DUSTMONITOR_B_2024_01.txt".toList]).map
            periodKey) ∧
      ∃ l, files_to_be_downloaded
          ["DUSTMONITOR_A_2024_01.txt".toList, "DUSTMONITOR_B_2024_01.txt".toList] [] =
          FtbdResult.files l ∧
        ∀ x ∈ l, firstMatch (matchingFiles
          ["DUSTMONITOR_A_2024_01.txt".toList, "DUSTMONITOR_B_2024_01.txt".toList])
          (periodKey x) = some x) :=
  ⟨by decide, by decide, by decide,
    C3_tiebreak
      ["DUSTMONITOR_A_2024_01.txt".toList, "DUSTMONITOR_B_2024_01.txt".toList] []
      (by decide) (by decide) (by decide)⟩

/-- C7 (confirmed): on a listing with zero matching filenames the function
returns the `None` sentinel; it never returns a valid-but-empty list (so the
sentinel is genuinely distinguished); and the main loop turns the sentinel
into a raised `ValueError` — a caught cycle-fatal error, not "nothing to
do". -/
theorem C7_no_match_sentinel (fc lf : List Str) (env : CycleEnv)
    (hfc : env.listing = Option.some fc) (h : matchingFiles fc = []) :
    files_to_be_downloaded fc lf = FtbdResult.none ∧
    files_to_be_downloaded fc lf ≠ FtbdResult.files [] ∧
    pollCycle env = CycleOutcome.caught PyErr.noFiles := by
  refine ⟨(ftbd_none_iff fc lf).mpr h, ftbd_ne_files_nil fc lf, ?_⟩
  unfold pollCycle rawCycle
  simp only [hfc]
  rw [(ftbd_none_iff fc env.localFiles).mpr h]

/-- C7 (witness): a listing holding only `fidas.log`, which does not match
the pattern. -/
theorem C7_no_match_sentinel_witness :
    (CycleEnv.mk (Option.some ["fidas.log".toList]) [] (fun _ => Option.none) 0).listing =
      Option.some ["fidas.log".toList] ∧
    matchingFiles ["fidas.log".toList] = [] ∧
    (files_to_be_downloaded ["fidas.log".toList] [] = FtbdResult.none ∧
      files_to_be_downloaded ["fidas.log".toList] [] ≠ FtbdResult.files [] ∧
      pollCycle (CycleEnv.mk (Option.some ["fidas.log".toList]) []
        (fun _ => Option.none) 0) = CycleOutcome.caught PyErr.noFiles) :=
  ⟨rfl, by decide,
    C7_no_match_sentinel ["fidas.log".toList] []
      (CycleEnv.mk (Option.some ["fidas.log".toList]) [] (fun _ => Option.none) 0)
      rfl (by decide)⟩

/-- C10 (counterexample): the claim says the function is total and never
raises, but on the listing `["DUSTMONITORX.txt"]` — whose single filename
matches the instrument pattern `DUSTMONITOR*.txt` — the inner loop finds no
filename matching the derived per-period pattern `DUSTMONITOR*ONIT_RX.txt`,
so the Python function raises `UnboundLocalError` and returns nothing. -/
theorem C10_counterexample :
    matchingFiles ["DUSTMONITORX.txt".toList] ≠ [] ∧
    files_to_be_downloaded ["DUSTMONITORX.txt".toList] [] = FtbdResult.error := by
  constructor
  · decide
  · decide

/-- Totality of the walk once `fname` is bound: whatever the per-period
fnmatch finds (or fails to find, reusing the stale binding), the loop
terminates with a list of filenames drawn from `fns`.  No assumption about
metacharacters is needed. -/
theorem walk_total (fns lf : List Str) :
    ∀ (keys : List Key) (b : Str), b ∈ fns →
      ∃ l, walk fns lf keys (some b) = Except.ok l ∧ ∀ x ∈ l, x ∈ fns := by
  intro keys
  induction keys with
  | nil =>
    intro b _
    exact ⟨[], rfl, fun x hx => absurd hx (List.not_mem_nil x)⟩
  | cons k rest ih =>
    intro b hb
    obtain ⟨fn, hch, hfn⟩ :
        ∃ fn, chooseName fns k (some b) = some fn ∧ fn ∈ fns := by
      cases hfm : firstMatch fns k with
      | some fn =>
        exact ⟨fn, by simp [chooseName, hfm], List.mem_of_find?_eq_some hfm⟩
      | none => exact ⟨b, by simp [chooseName, hfm], hb⟩
    by_cases hl : fn ∈ lf
    · refine ⟨[fn], ?_, ?_⟩
      · simp only [walk, hch, if_pos hl]
      · intro x hx
        rw [List.mem_singleton.mp hx]
        exact hfn
    · obtain ⟨l', h_ok, h_mem⟩ := ih fn hfn
      refine ⟨fn :: l', ?_, ?_⟩
      · simp only [walk, hch, if_neg hl, h_ok, Except.map]
      · intro x hx
        rcases List.mem_cons.mp hx with rfl | hx
        · exact hfn
        · exact h_mem x hx

/-- C10 (amended): the function terminates without raising on every input
except listings (with at least one matching filename) in which no listed
filename fnmatch-matches the newest period key's per-period pattern — there
the first outer-loop iteration reads the never-assigned variable `fname` and
raises `UnboundLocalError`.  On a listing with no matching filenames it
returns the `None` sentinel, and otherwise — given that the newest key's
pattern is fnmatch-matched by some filename — it returns a non-empty list
each of whose elements is a filename token taken from the listing. -/
theorem C10_totality (fc lf : List Str) :
    (matchingFiles fc = [] → files_to_be_downloaded fc lf = FtbdResult.none) ∧
    (matchingFiles fc ≠ [] →
      (∃ fn ∈ matchingFiles fc,
        globMatch (patFull (newestKey fc)) fn = true) →
      ∃ l, files_to_be_downloaded fc lf = FtbdResult.files l ∧ l ≠ [] ∧
        ∀ x ∈ l, x ∈ fc.map lastToken) := by
  constructor
  · intro h
    exact (ftbd_none_iff fc lf).mpr h
  · intro hne hbind
    obtain ⟨k0, rest, hkd⟩ := List.exists_cons_of_ne_nil
      (show sortedKeysDesc (matchingFiles fc) ≠ [] by
        intro hnil
        apply hne
        apply List.length_eq_zero.mp
        rw [← sortedKeysDesc_length, hnil]
        rfl)
    have hnk : newestKey fc = k0 := by
      unfold newestKey
      rw [hkd]
      rfl
    obtain ⟨fn0, hfn0mem, hfn0pat⟩ := hbind
    have hfm0ex : (firstMatch (matchingFiles fc) k0).isSome := by
      unfold firstMatch
      rw [List.find?_isSome]
      exact ⟨fn0, hfn0mem, by rw [← hnk]; exact hfn0pat⟩
    obtain ⟨fm0, hfm0⟩ := Option.isSome_iff_exists.mp hfm0ex
    have hfm0mem : fm0 ∈ matchingFiles fc := List.mem_of_find?_eq_some hfm0
    have hsub : ∀ x ∈ matchingFiles fc, x ∈ fc.map lastToken := by
      intro x hx
      exact List.mem_of_mem_filter hx
    by_cases hl : fm0 ∈ lf
    · refine ⟨[fm0], ?_, by simp, ?_⟩
      · unfold files_to_be_downloaded
        rw [if_neg hne, hkd]
        simp only [walk, chooseName, hfm0, if_pos hl]
      · intro x hx
        rw [List.mem_singleton.mp hx]
        exact hsub fm0 hfm0mem
    · obtain ⟨l', h_ok, h_mem⟩ := walk_total (matchingFiles fc) lf rest fm0 hfm0mem
      refine ⟨fm0 :: l', ?_, by simp, ?_⟩
      · unfold files_to_be_downloaded
        rw [if_neg hne, hkd]
        simp only [walk, chooseName, hfm0, if_neg hl, h_ok, Except.map]
      · intro x hx
        rcases List.mem_cons.mp hx with hxe | hx'
        · rw [hxe]
          exact hsub fm0 hfm0mem
        · exact hsub x (h_mem x hx')

/-- C10 (witness): a single well-formed filename. -/
theorem C10_totality_witness :
    matchingFiles ["DUSTMONITOR_2024_05.txt".toList] ≠ [] ∧
    (∃ fn ∈ matchingFiles ["DUSTMONITOR_2024_05.txt".toList],
      globMatch (patFull (newestKey ["DUSTMONITOR_2024_05.txt".toList])) fn = true) ∧
    (∃ l, files_to_be_downloaded ["DUSTMONITOR_2024_05.txt".toList] [] =
        FtbdResult.files l ∧ l ≠ [] ∧
      ∀ x ∈ l, x ∈ ["DUSTMONITOR_2024_05.txt".toList].map lastToken) :=
  ⟨by decide, by decide,
    (C10_totality ["DUSTMONITOR_2024_05.txt".toList] []).2 (by decide) (by decide)⟩

/-- C4 (counterexample): a fully successful cycle that took 700 s (more than
the 600 s interval) does not sleep a clamped 0 s: the source passes the
negative residual `600 - 700` straight to `time.sleep`, which raises
`ValueError`; the exception is caught and the cycle ends without sleeping. -/
theorem C4_counterexample :
    pollCycle (CycleEnv.mk (Option.some ["DUSTMONITOR_2024_05.txt".toList]) []
        (fun _ => Option.none) 700) = CycleOutcome.caught PyErr.negSleep ∧
    pollCycle (CycleEnv.mk (Option.some ["DUSTMONITOR_2024_05.txt".toList]) []
        (fun _ => Option.none) 700) ≠ CycleOutcome.slept 0 := by
  constructor
  · decide
  · decide

/-- C4 (amended): at the end of a successful poll cycle the loop sleeps for
`DownloadInterval - elapsed` whenever that residual is non-negative; when the
cycle overran the interval, the sleep duration is *not* clamped at zero —
`time.sleep` receives the negative residual and raises `ValueError`, which
the top-level handler catches, so the loop proceeds immediately with no
sleep. -/
theorem C4_sleep (env : CycleEnv) (fc l : List Str)
    (hfc : env.listing = Option.some fc)
    (hsel : files_to_be_downloaded fc env.localFiles = FtbdResult.files l)
    (hproc : processFiles env.fileResult l = Except.ok ()) :
    (0 ≤ DownloadInterval - env.elapsed →
      pollCycle env = CycleOutcome.slept (DownloadInterval - env.elapsed)) ∧
    (DownloadInterval - env.elapsed < 0 →
      pollCycle env = CycleOutcome.caught PyErr.negSleep) := by
  unfold pollCycle rawCycle
  simp only [hfc, hsel, hproc]
  constructor
  · intro h
    simp [sleepCall, not_lt.mpr h]
  · intro h
    simp [sleepCall, h]

/-- C4 (witness): a successful cycle with 100 s elapsed sleeps the 500 s
residual. -/
theorem C4_sleep_witness :
    (CycleEnv.mk (Option.some ["DUSTMONITOR_2024_05.txt".toList]) []
        (fun _ => Option.none) 100).listing =
      Option.some ["DUSTMONITOR_2024_05.txt".toList] ∧
    files_to_be_downloaded ["DUSTMONITOR_2024_05.txt".toList] [] =
      FtbdResult.files ["DUSTMONITOR_2024_05.txt".toList] ∧
    processFiles (fun _ => Option.none) ["DUSTMONITOR_2024_05.txt".toList] =
      Except.ok () ∧
    0 ≤ DownloadInterval - (100 : Int) ∧
    pollCycle (CycleEnv.mk (Option.some ["DUSTMONITOR_2024_05.txt".toList]) []
        (fun _ => Option.none) 100) =
      CycleOutcome.slept (DownloadInterval - 100) :=
  ⟨rfl, by decide, rfl, by decide,
    (C4_sleep
      (CycleEnv.mk (Option.some ["DUSTMONITOR_2024_05.txt".toList]) []
        (fun _ => Option.none) 100)
      ["DUSTMONITOR_2024_05.txt".toList] ["DUSTMONITOR_2024_05.txt".toList]
      rfl (by decide) rfl).1 (by decide)⟩

/-- C5 (counterexample): a cycle whose connection attempt fails is caught and
reported, but the loop does not sleep at all before the next cycle — the
`time.sleep` call sits inside the `try` block after the raise point, so a
persistently failing remote is re-polled immediately, not once per configured
interval. -/
theorem C5_counterexample :
    pollCycle (CycleEnv.mk Option.none [] (fun _ => Option.none) 0) =
      CycleOutcome.caught PyErr.connError ∧
    sleepOf (pollCycle (CycleEnv.mk Option.none [] (fun _ => Option.none) 0)) =
      Option.none := by
  constructor
  · decide
  · decide

/-- C5 (amended): every exception raised inside a poll cycle is caught at the
loop boundary and turned into a reported outcome (never re-raised), and the
loop then proceeds to the next cycle, so no cycle failure terminates the
process; but a persistently failing remote yields an error outcome with *no
sleep* every cycle — immediate retry forever with neither backoff nor
interval pacing, because the sleep is skipped on the error path. -/
theorem C5_catch_all :
    (∀ (env : CycleEnv) (e : PyErr),
      rawCycle env = Except.error e → pollCycle env = CycleOutcome.caught e) ∧
    (∀ envs : Nat → CycleEnv, (∀ n, (envs n).listing = Option.none) →
      ∀ n, pollTrace envs n = CycleOutcome.caught PyErr.connError ∧
        sleepOf (pollTrace envs n) = Option.none) := by
  constructor
  · intro env e h
    unfold pollCycle
    rw [h]
  · intro envs h n
    unfold pollTrace pollCycle rawCycle
    rw [h n]
    exact ⟨rfl, rfl⟩

/-- C5 (witness): a remote that is down on every cycle: cycle 5 (like every
other) is a caught connection error with no sleep. -/
theorem C5_catch_all_witness :
    (∀ n : Nat, ((fun _ => CycleEnv.mk Option.none [] (fun _ => Option.none) 0 :
        Nat → CycleEnv) n).listing = Option.none) ∧
    (pollTrace (fun _ => CycleEnv.mk Option.none [] (fun _ => Option.none) 0) 5 =
        CycleOutcome.caught PyErr.connError ∧
      sleepOf (pollTrace (fun _ => CycleEnv.mk Option.none []
        (fun _ => Option.none) 0) 5) = Option.none) :=
  ⟨fun _ => rfl,
    C5_catch_all.2 (fun _ => CycleEnv.mk Option.none [] (fun _ => Option.none) 0)
      (fun _ => rfl) 5⟩

/-- C2 (confirmed): for both the raw download (staging
`temporary_dust_file.txt`, final name the remote filename) and the conversion
(staging `temporary_dust_file.nc`, final name `<filename-without-.txt>.nc`),
every state reachable before the rename leaves the final name exactly as it
was initially — so an interrupted transfer or conversion never creates the
final name, and a re-fetch of an existing file keeps its old complete
content until the atomic switch — while the state after the rename maps the
final name to the full written content and removes the staging name. -/
theorem C2_atomic_publish (fs0 : FS) (fname : Str) (chunks ncChunks : List (List Nat))
    (hm : matchesStarPat dustPre txtSuf fname = true) :
    (∀ i, stagedAt fs0 stagingTxt chunks i fname = fs0 fname) ∧
    publishAt fs0 stagingTxt fname chunks fname = Option.some chunks.flatten ∧
    publishAt fs0 stagingTxt fname chunks stagingTxt = Option.none ∧
    (∀ i, stagedAt fs0 stagingNc ncChunks i (ncName fname) = fs0 (ncName fname)) ∧
    publishAt fs0 stagingNc (ncName fname) ncChunks (ncName fname) =
      Option.some ncChunks.flatten ∧
    publishAt fs0 stagingNc (ncName fname) ncChunks stagingNc = Option.none :=
  ⟨fun _ => stagedAt_other (match_ne_stagingTxt hm),
    publishAt_final,
    publishAt_staging (Ne.symm (match_ne_stagingTxt hm)),
    fun _ => stagedAt_other (ncName_ne_stagingNc hm),
    publishAt_final,
    publishAt_staging (Ne.symm (ncName_ne_stagingNc hm))⟩

/-- C2 (witness): a concrete fetched filename with two raw chunks and one
converted chunk over an initially empty directory. -/
theorem C2_atomic_publish_witness :
    matchesStarPat dustPre txtSuf "DUSTMONITOR_2024_05.txt".toList = true ∧
    ((∀ i, stagedAt (fun _ => Option.none) stagingTxt [[1], [2, 3]] i
        "DUSTMONITOR_2024_05.txt".toList =
        (fun _ => (Option.none : Option (List Nat))) "DUSTMONITOR_2024_05.txt".toList) ∧
      publishAt (fun _ => Option.none) stagingTxt "DUSTMONITOR_2024_05.txt".toList
        [[1], [2, 3]] "DUSTMONITOR_2024_05.txt".toList =
        Option.some [[1], [2, 3]].flatten ∧
      publishAt (fun _ => Option.none) stagingTxt "DUSTMONITOR_2024_05.txt".toList
        [[1], [2, 3]] stagingTxt = Option.none ∧
      (∀ i, stagedAt (fun _ => Option.none) stagingNc [[7]] i
        (ncName "DUSTMONITOR_2024_05.txt".toList) =
        (fun _ => (Option.none : Option (List Nat)))
          (ncName "DUSTMONITOR_2024_05.txt".toList)) ∧
      publishAt (fun _ => Option.none) stagingNc
        (ncName "DUSTMONITOR_2024_05.txt".toList) [[7]]
        (ncName "DUSTMONITOR_2024_05.txt".toList) = Option.some [[7]].flatten ∧
      publishAt (fun _ => Option.none) stagingNc
        (ncName "DUSTMONITOR_2024_05.txt".toList) [[7]] stagingNc = Option.none) :=
  ⟨by decide,
    C2_atomic_publish (fun _ => Option.none) "DUSTMONITOR_2024_05.txt".toList
      [[1], [2, 3]] [[7]] (by decide)⟩

/-- C6 (confirmed): the transfer deadline defaults to 180 s
(`MaxTimeAllowed = 60*3`); when the alarm fires, `download_data_file`
re-raises the distinguished `FTPTimeoutError` to its caller, the final name
is still absent (given it was absent before the fetch), and the partial
staging file is left in place rather than deleted; a successful fetch leaves
the full content at the final name and no staging file. -/
theorem C6_timeout (fs0 : FS) (fname : Str) (chunks : List (List Nat))
    (hm : matchesStarPat dustPre txtSuf fname = true)
    (habs : fs0 fname = Option.none) :
    MaxTimeAllowed = 180 ∧
    (∀ i, download_data_file fs0 fname chunks (Xfer.timeoutAfter i) =
        Except.error (PyErr.ftpTimeout, stagedAt fs0 stagingTxt chunks i) ∧
      stagedAt fs0 stagingTxt chunks i fname = Option.none ∧
      stagedAt fs0 stagingTxt chunks i stagingTxt =
        Option.some ((chunks.take i).flatten)) ∧
    (download_data_file fs0 fname chunks Xfer.ok =
        Except.ok (publishAt fs0 stagingTxt fname chunks) ∧
      publishAt fs0 stagingTxt fname chunks fname = Option.some chunks.flatten ∧
      publishAt fs0 stagingTxt fname chunks stagingTxt = Option.none) :=
  ⟨by decide,
    fun i => ⟨rfl,
      by rw [stagedAt_other (match_ne_stagingTxt hm)]; exact habs,
      stagedAt_self fs0 stagingTxt chunks i⟩,
    ⟨rfl, publishAt_final, publishAt_staging (Ne.symm (match_ne_stagingTxt hm))⟩⟩

/-- C6 (witness): a fresh fetch of a concrete filename with three chunks. -/
theorem C6_timeout_witness :
    matchesStarPat dustPre txtSuf "DUSTMONITOR_2024_06.txt".toList = true ∧
    (fun _ => (Option.none : Option (List Nat))) "DUSTMONITOR_2024_06.txt".toList =
      Option.none ∧
    (MaxTimeAllowed = 180 ∧
      (∀ i, download_data_file (fun _ => Option.none)
          "DUSTMONITOR_2024_06.txt".toList [[1], [2], [3]] (Xfer.timeoutAfter i) =
          Except.error (PyErr.ftpTimeout,
            stagedAt (fun _ => Option.none) stagingTxt [[1], [2], [3]] i) ∧
        stagedAt (fun _ => Option.none) stagingTxt [[1], [2], [3]] i
          "DUSTMONITOR_2024_06.txt".toList = Option.none ∧
        stagedAt (fun _ => Option.none) stagingTxt [[1], [2], [3]] i stagingTxt =
          Option.some (([[1], [2], [3]].take i).flatten)) ∧
      (download_data_file (fun _ => Option.none) "DUSTMONITOR_2024_06.txt".toList
          [[1], [2], [3]] Xfer.ok =
          Except.ok (publishAt (fun _ => Option.none) stagingTxt
            "DUSTMONITOR_2024_06.txt".toList [[1], [2], [3]]) ∧
        publishAt (fun _ => Option.none) stagingTxt
          "DUSTMONITOR_2024_06.txt".toList [[1], [2], [3]]
          "DUSTMONITOR_2024_06.txt".toList = Option.some [[1], [2], [3]].flatten ∧
        publishAt (fun _ => Option.none) stagingTxt
          "DUSTMONITOR_2024_06.txt".toList [[1], [2], [3]] stagingTxt =
          Option.none)) :=
  ⟨by decide, rfl,
    C6_timeout (fun _ => Option.none) "DUSTMONITOR_2024_06.txt".toList
      [[1], [2], [3]] (by decide) rfl⟩

theorem zipWith_mul_sum (l w : List Nat) :
    (List.zipWith (fun a b => a * b) l w).sum =
      ∑ i ∈ Finset.range (min l.length w.length), l.getD i 0 * w.getD i 0 := by
  induction l generalizing w with
  | nil => simp
  | cons a l ih =>
    cases w with
    | nil => simp
    | cons b w =>
      simp only [List.zipWith_cons_cons, List.sum_cons, ih]
      rw [List.length_cons, List.length_cons, Nat.succ_min_succ, Finset.sum_range_succ']
      simp [List.getD]
      ring

/-- C8 (confirmed): for every parsed row (given at least the 19 leading
columns), the derived `errors` value — the dot product of columns 11-18 of
the parsed table with the weight column `[1,2,4,8,16,32,64,128]`, cast to
`uint8` — equals the sum over the 8 flag columns of `flag_i * 2^i`, taken
modulo 256. -/
theorem C8_errors_bitfield (row : List Nat) (h : 19 ≤ row.length) :
    errorsOf row = (∑ i ∈ Finset.range 8, row.getD (11 + i) 0 * 2 ^ i) % 256 := by
  unfold errorsOf
  rw [zipWith_mul_sum]
  have hlen : ((row.drop 11).take 8).length = 8 := by
    simp only [List.length_take, List.length_drop]
    omega
  have hwlen : errorsWeights.length = 8 := by decide
  rw [hlen, hwlen, Nat.min_self]
  congr 1
  apply Finset.sum_congr rfl
  intro i hi
  have hi8 : i < 8 := Finset.mem_range.mp hi
  have hwv : ∀ j, j < 8 → errorsWeights.getD j 0 = 2 ^ j := by decide
  rw [hwv i hi8]
  congr 1
  rw [List.getD_eq_getElem?_getD, List.getD_eq_getElem?_getD,
    List.getElem?_take, if_pos hi8, List.getElem?_drop]

/-- C8 (witness): the spec's round-trip example — flags set at bit 0 and
bit 3 — yields `errors = 1 + 8 = 9`. -/
theorem C8_errors_bitfield_witness :
    19 ≤ (List.replicate 11 0 ++ [1, 0, 0, 1, 0, 0, 0, 0] : List Nat).length ∧
    errorsOf (List.replicate 11 0 ++ [1, 0, 0, 1, 0, 0, 0, 0]) =
      (∑ i ∈ Finset.range 8,
        (List.replicate 11 0 ++ [1, 0, 0, 1, 0, 0, 0, 0] : List Nat).getD (11 + i) 0 *
          2 ^ i) % 256 ∧
    errorsOf (List.replicate 11 0 ++ [1, 0, 0, 1, 0, 0, 0, 0]) = 9 :=
  ⟨by decide, C8_errors_bitfield (List.replicate 11 0 ++ [1, 0, 0, 1, 0, 0, 0, 0])
    (by decide), by decide⟩

/-- A concrete raw header with 125 pairwise distinct column labels, used to
exercise the size-channel index range. -/
def c9Header : List Str := (List.range 125).map (fun n => Nat.toDigits 10 n)

/-- A concrete parsed row matching `c9Header` after the date/time merge. -/
def c9Row : List Nat := List.range 124

/-- C9 (counterexample): `dustdata.columns` starts with the merged
`date_time` column, so `columns[43:121]` selects raw-file columns 45-122
(1-indexed), not 44-121 as the claim states: on this distinct-label header
the code's selection differs from the claim's selection, and the first
size-channel label is the raw header's 0-indexed column 44 (1-indexed 45). -/
theorem C9_counterexample :
    sizesLabels (mergedColumns c9Header) ≠ (c9Header.drop 43).take 78 ∧
    (sizesLabels (mergedColumns c9Header))[0]? = c9Header[44]? ∧
    c9Header[44]? ≠ c9Header[43]? := by
  refine ⟨by decide, by decide, by decide⟩

/-- C9 (amended): the size-channel columns are those at positions 44-121
(1-indexed) of the *parsed* table — whose first column is the merged
`date_time` — i.e. columns 45-122 (1-indexed) of the raw source file layout;
there are 78 of them; their header labels, transformed by the (abstract)
float parser in header order, are the `sizes` coordinate values; and the
same position `43 + i` of the parsed row supplies entry `i` of the second
axis of `spectra`, so the two share one order. -/
theorem C9_size_channels {α β : Type} (parse : Str → α) (dflt : β)
    (rawHeader : List Str) (row : List β)
    (hN : (mergedColumns rawHeader).Nodup)
    (hlen : 123 ≤ rawHeader.length)
    (hrow : row.length = (mergedColumns rawHeader).length) :
    (sizesLabels (mergedColumns rawHeader)).length = 78 ∧
    (∀ i, i < 78 → (sizesLabels (mergedColumns rawHeader))[i]? = rawHeader[44 + i]?) ∧
    (∀ i, i < 78 → (sizesCoords parse (mergedColumns rawHeader))[i]? =
      Option.map parse ((mergedColumns rawHeader)[43 + i]?)) ∧
    (∀ i, i < 78 → (spectraRow dflt (mergedColumns rawHeader) row)[i]? =
      row[43 + i]?) := by
  have hmlen : (mergedColumns rawHeader).length = rawHeader.length - 1 := by
    simp only [mergedColumns, List.length_cons, List.length_drop]
    omega
  have hsl : ∀ i, i < 78 →
      (sizesLabels (mergedColumns rawHeader))[i]? = (mergedColumns rawHeader)[43 + i]? := by
    intro i hi
    unfold sizesLabels
    rw [List.getElem?_take, if_pos hi, List.getElem?_drop]
  refine ⟨?_, ?_, ?_, ?_⟩
  · simp only [sizesLabels, List.length_take, List.length_drop, hmlen]
    omega
  · intro i hi
    rw [hsl i hi]
    show (dateTimeCol :: rawHeader.drop 2)[43 + i]? = _
    have h1 : 43 + i = (42 + i) + 1 := by omega
    rw [h1, List.getElem?_cons_succ, List.getElem?_drop]
    congr 1
    omega
  · intro i hi
    unfold sizesCoords
    rw [List.getElem?_map, hsl i hi]
  · intro i hi
    have hb : 43 + i < (mergedColumns rawHeader).length := by omega
    have hbr : 43 + i < row.length := by omega
    unfold spectraRow
    rw [List.getElem?_map, hsl i hi]
    rw [List.getElem?_eq_getElem hb, List.getElem?_eq_getElem hbr]
    simp only [Option.map_some']
    rw [colIndex_getElem hN hb]
    congr 1
    rw [List.getD_eq_getElem?_getD, List.getElem?_eq_getElem hbr]
    rfl

/-- C9 (witness): the 125-column distinct-label header with the 124-entry
row, the float parser abstracted to label length. -/
theorem C9_size_channels_witness :
    (mergedColumns c9Header).Nodup ∧
    123 ≤ c9Header.length ∧
    c9Row.length = (mergedColumns c9Header).length ∧
    ((sizesLabels (mergedColumns c9Header)).length = 78 ∧
      (∀ i, i < 78 → (sizesLabels (mergedColumns c9Header))[i]? = c9Header[44 + i]?) ∧
      (∀ i, i < 78 → (sizesCoords List.length (mergedColumns c9Header))[i]? =
        Option.map List.length ((mergedColumns c9Header)[43 + i]?)) ∧
      (∀ i, i < 78 → (spectraRow 0 (mergedColumns c9Header) c9Row)[i]? =
        c9Row[43 + i]?)) :=
  ⟨by decide, by decide, by decide,
    C9_size_channels List.length 0 c9Header c9Row (by decide) (by decide) (by decide)⟩

end Fidas
